import Mathlib

/-!
# Cafeteria menu scraper: embedding of `main.go` and `scraper.go`

The Go program fetches one page with colly, looks for the `strong` node that
carries the requested date, walks the cells of a `figure.wp-block-table`
block and groups the parsed meal items by meal period.

Conventions of the embedding

* Go strings are lists of code points (`Str`); `strings.Contains`,
  `strings.Split` and `strings.TrimSpace` are re-implemented on them.
* A Go slice is an `Option (List α)`: `none` is the nil slice, `some xs` a
  non-nil slice, so `[]string{}` and a nil slice stay distinguishable.
* A Go map is an association list with unique keys, `none` being the nil map.
* The parsed page is a tree of `Node`s.  The two goquery operations that go
  between markup text and trees (`Selection.Html`, `NewDocumentFromReader`)
  live outside the repository and are a parameter (`Lib`) of every function
  that uses them; the general theorems hold for every `Lib`.
* Time, the network and the count of issued page visits are explicit
  (`World`).
-/

namespace Scraper

/-! ## Strings -/

/-- Go strings, as sequences of code points. -/
abbrev Str := List Char

/-- Model of `strings.Contains`: `sub` occurs in `s` as a contiguous block. -/
def contains (s sub : Str) : Bool :=
  s.tails.any (fun t => sub.isPrefixOf t)

/-- Model of `unicode.IsSpace`, the class `strings.TrimSpace` removes. -/
def isSpace (c : Char) : Bool :=
  let n := c.toNat
  n == 9 || n == 10 || n == 11 || n == 12 || n == 13 || n == 32 ||
  n == 0x85 || n == 0xA0 || n == 0x1680 || (0x2000 ≤ n && n ≤ 0x200A) ||
  n == 0x2028 || n == 0x2029 || n == 0x202F || n == 0x205F || n == 0x3000

/-- Model of `strings.TrimSpace`: white space removed at both ends. -/
def trimSpace (s : Str) : Str :=
  (s.dropWhile isSpace).rdropWhile isSpace

/-- Worker of `split`: `skip` counts the characters of a separator that was
just recognised and still has to be passed over, `acc` holds the current
piece in reverse. -/
def splitAux (sep : Str) : Nat → Str → Str → List Str
  | _, acc, [] => [acc.reverse]
  | skip + 1, acc, _ :: cs => splitAux sep skip acc cs
  | 0, acc, c :: cs =>
    if sep.isPrefixOf (c :: cs) then
      acc.reverse :: splitAux sep (sep.length - 1) [] cs
    else
      splitAux sep 0 (c :: acc) cs

/-- Model of `strings.Split s sep` for a non-empty separator: the pieces of
`s` between the non-overlapping occurrences of `sep`, taken left to right. -/
def split (s sep : Str) : List Str :=
  splitAux sep 0 [] s

/-! ## Names used by the program -/

/-- The attribute name `src`. -/
def attrSrc : Str := "src".toList
/-- The attribute name `class`. -/
def attrClass : Str := "class".toList
/-- The tag name `img`. -/
def tagImg : Str := "img".toList
/-- The tag name `tr`. -/
def tagTr : Str := "tr".toList
/-- The tag name `td`. -/
def tagTd : Str := "td".toList
/-- The tag name `strong`. -/
def tagStrong : Str := "strong".toList
/-- The tag name `figure`. -/
def tagFigure : Str := "figure".toList
/-- The class name `wp-block-table`. -/
def classTable : Str := "wp-block-table".toList
/-- The period identifier `breakfast`. -/
def breakfast : Str := "breakfast".toList
/-- The period identifier `lunch`. -/
def lunch : Str := "lunch".toList
/-- The period identifier `dinner`. -/
def dinner : Str := "dinner".toList

/-! ## Slices and maps -/

/-- A Go slice value; `none` is the nil slice. -/
abbrev Slice (α : Type) := Option (List α)

/-- The elements of a slice. -/
def Slice.elems {α : Type} : Slice α → List α
  | none => []
  | some xs => xs

/-- Go `len`. -/
def Slice.len {α : Type} (s : Slice α) : Nat :=
  s.elems.length

/-- Go `append(s, x)`. -/
def Slice.push {α : Type} (s : Slice α) (x : α) : Slice α :=
  some (s.elems ++ [x])

/-- Go `append(s, xs...)`: with nothing to add the slice is returned as it
is, nil included. -/
def Slice.appendAll {α : Type} (s xs : Slice α) : Slice α :=
  match xs.elems with
  | [] => s
  | y :: ys => some (s.elems ++ y :: ys)

/-- The type `Meal` of `main.go`. -/
structure Meal where
  Name : Str
  Icons : Slice Str
  deriving DecidableEq, Repr

/-- A non-nil Go `map[string][]Meal`: keys are unique, in order of first
insertion. -/
abbrev MealsMap := List (Str × Slice Meal)

/-- Go `m[k]` with the comma-ok form. -/
def MealsMap.get : MealsMap → Str → Option (Slice Meal)
  | [], _ => none
  | (k1, v1) :: m, k => if k1 = k then some v1 else MealsMap.get m k

/-- Go `m[k] = v`: the value of an existing key is replaced. -/
def MealsMap.set : MealsMap → Str → Slice Meal → MealsMap
  | [], k, v => [(k, v)]
  | (k1, v1) :: m, k, v =>
    if k1 = k then (k, v) :: m else (k1, v1) :: MealsMap.set m k v

/-- The keys of a map. -/
def MealsMap.keys (m : MealsMap) : List Str :=
  m.map Prod.fst

/-! ## The parsed page -/

/-- A node of a parsed document (`html.Node`): the document root, text,
comments and elements with their attributes and children. -/
inductive Node where
  | document (children : List Node)
  | text (data : Str)
  | comment (data : Str)
  | elem (tag : Str) (attrs : List (Str × Str)) (children : List Node)

mutual
/-- Model of `Selection.Text` on one node: the data of all text nodes below
it, in document order. -/
def Node.textOf : Node → Str
  | .document cs => Node.textOfList cs
  | .text d => d
  | .comment _ => []
  | .elem _ _ cs => Node.textOfList cs
/-- Text of a list of sibling nodes. -/
def Node.textOfList : List Node → Str
  | [] => []
  | n :: ns => Node.textOf n ++ Node.textOfList ns
end

mutual
/-- Model of `Selection.Find` on one node: the proper descendants that
satisfy the selector, in document order. -/
def Node.find (p : Node → Bool) : Node → List Node
  | .document cs => Node.findList p cs
  | .text _ => []
  | .comment _ => []
  | .elem _ _ cs => Node.findList p cs
/-- The nodes of a list of siblings, and their descendants, that satisfy the
selector. -/
def Node.findList (p : Node → Bool) : List Node → List Node
  | [] => []
  | n :: ns => (if p n then [n] else []) ++ Node.find p n ++ Node.findList p ns
end

/-- Model of `Selection.Attr`: the value of the first attribute of that
name, if the node is an element that has one. -/
def Node.attr (name : Str) : Node → Option Str
  | .elem _ attrs _ => (attrs.find? (fun kv => kv.1 = name)).map Prod.snd
  | _ => none

/-- Type selector: an element with this tag name. -/
def Node.hasTag (tag : Str) : Node → Bool
  | .elem t _ _ => t = tag
  | _ => false

/-- The white-space separated tokens of a `class` attribute value. -/
def classTokens (s : Str) : List Str :=
  s.splitOnP (fun c => c = ' ' || c = '\t' || c = '\r' || c = '\n' || c.toNat = 12)

/-- Class selector: the `class` attribute lists this token. -/
def Node.hasClass (cls : Str) (n : Node) : Bool :=
  match n.attr attrClass with
  | some v => (classTokens v).contains cls
  | none => false

/-- The goquery operations that convert between markup text and trees. -/
structure Lib where
  /-- Model of `Selection.Html` of an element: its rendered inner markup, or a
  rendering error. -/
  html : Node → Except Str Str
  /-- Model of `goquery.NewDocumentFromReader` on a string: the parsed
  document, or a parse error. -/
  newDocumentFromReader : Str → Except Str Node

/-! ## `scraper.go`: markers and the meal-item parser -/

/-- The marker phrase of breakfast. -/
def phraseBreakfast : Str := "CAFÉ DA MANHÃ".toList
/-- The marker phrase of lunch. -/
def phraseLunch : Str := "ALMOÇO".toList
/-- The marker phrase of dinner. -/
def phraseDinner : Str := "JANTAR".toList

/-- Translation of `mapMealType`. -/
def mapMealType (htmlContent : Str) : Str :=
  if contains htmlContent phraseBreakfast then breakfast
  else if contains htmlContent phraseLunch then lunch
  else if contains htmlContent phraseDinner then dinner
  else []

/-- The `Each` callback of `partDOM.Find("img")` in `extractMealColly`. -/
def collectIcon (icons : Slice Str) (img : Node) : Slice Str :=
  match img.attr attrSrc with
  | some src => icons.push src
  | none => icons

/-- The body of the loop over `contentParts` in `extractMealColly`. -/
def extractPart (lib : Lib) (meals : Slice Meal) (part : Str) : Slice Meal :=
  match lib.newDocumentFromReader part with
  | .error _ => meals
  | .ok partDOM =>
    let icons := (partDOM.find (Node.hasTag tagImg)).foldl collectIcon (some [])
    let name := trimSpace partDOM.textOf
    if name ≠ [] then meals.push { Name := name, Icons := icons } else meals

/-- The line-break marker the cell markup is split on. -/
def brMarker : Str := "<br/>".toList

/-- Translation of `extractMealColly`. -/
def extractMealColly (lib : Lib) (cell : Node) : Slice Meal :=
  match lib.html cell with
  | .error _ => none
  | .ok htmlContent => (split htmlContent brMarker).foldl (extractPart lib) none

/-! ## Dates -/

/-- The calendar part of a Go `time.Time`, the only part the program reads. -/
structure Time where
  year : Nat
  month : Nat
  day : Nat
  deriving DecidableEq, Repr

/-- Model of the `time` package's `appendInt` on a non-negative number: its
decimal digits, padded with zeros on the left up to `width`. -/
def appendInt (x width : Nat) : Str :=
  let ds := Nat.toDigits 10 x
  List.replicate (width - ds.length) '0' ++ ds

/-- Translation of `getFormattedDate`: `Format` with layout `02/01/06`. -/
def getFormattedDate (date : Time) : Str :=
  appendInt date.day 2 ++ '/' :: appendInt date.month 2 ++ '/' :: appendInt (date.year % 100) 2

/-- An ASCII decimal digit. -/
def isDigit (c : Char) : Bool :=
  48 ≤ c.toNat && c.toNat ≤ 57

/-- The value of a decimal digit. -/
def digitVal (c : Char) : Nat :=
  c.toNat - 48

/-- Gregorian leap years, as in the `time` package. -/
def isLeap (year : Nat) : Bool :=
  year % 4 == 0 && (year % 100 != 0 || year % 400 == 0)

/-- Number of days of a month, as in the `time` package. -/
def daysIn (month year : Nat) : Nat :=
  if month = 2 then (if isLeap year then 29 else 28)
  else if month = 4 ∨ month = 6 ∨ month = 9 ∨ month = 11 then 30
  else 31

/-- Model of `time.Parse` with layout `2006-01-02`: four digits, a dash, two
digits, a dash, two digits and nothing else; the month must lie in 1..12 and
the day in the month. -/
def timeParse (value : Str) : Except Str Time :=
  match value with
  | [y1, y2, y3, y4, s1, m1, m2, s2, d1, d2] =>
    if isDigit y1 && isDigit y2 && isDigit y3 && isDigit y4 && s1 = '-' &&
        isDigit m1 && isDigit m2 && s2 = '-' && isDigit d1 && isDigit d2 then
      let year := digitVal y1 * 1000 + digitVal y2 * 100 + digitVal y3 * 10 + digitVal y4
      let month := digitVal m1 * 10 + digitVal m2
      let day := digitVal d1 * 10 + digitVal d2
      if month = 0 ∨ 12 < month then .error "month out of range".toList
      else if day < 1 ∨ daysIn month year < day then .error "day out of range".toList
      else .ok { year := year, month := month, day := day }
    else .error "cannot parse".toList
  | _ => .error "cannot parse".toList

/-! ## `main.go`: request and response -/

/-- The type `Request` of `main.go`. -/
structure Request where
  Date : Str
  deriving DecidableEq, Repr

/-- The type `Response` of `main.go`; `Meals = none` is the nil map. -/
structure Response where
  Date : Str
  ImgMenu : Option Str
  RuName : Str
  RuUrl : Str
  RuCode : Str
  Served : Slice Str
  Meals : Option MealsMap
  deriving DecidableEq, Repr

/-- The zero value `Response{}`. -/
def Response.zero : Response :=
  { Date := [], ImgMenu := none, RuName := [], RuUrl := [], RuCode := [],
    Served := none, Meals := none }

/-- What one invocation sees of the outside: the clock, the outcome of
`c.Visit` on the fixed URL (an error, or the document colly hands to the
`OnHTML` callbacks) and the number of visits issued so far. -/
structure World where
  now : Time
  page : Except Str Node
  visits : Nat

/-! ## `scraper.go`: the extraction -/

/-- The variables the callbacks of `scrape` share: the map
`responsePayload.Meals` and the four locals. -/
structure ScrapeState where
  meals : MealsMap
  currentMealType : Str
  mealOptions : Slice Meal
  dateFound : Bool
  tableFound : Bool

/-- The test of `scrape` that makes a cell a period boundary. -/
def isMarker (htmlContent : Str) : Bool :=
  contains htmlContent phraseBreakfast || contains htmlContent phraseLunch ||
    contains htmlContent phraseDinner

/-- The callback registered for `strong`. -/
def onStrong (formattedDate : Str) (st : ScrapeState) (e : Node) : ScrapeState :=
  if !st.dateFound then
    let dateText := trimSpace e.textOf
    if contains dateText formattedDate then
      { st with dateFound := true, tableFound := false }
    else st
  else st

/-- The callback run on every `td` of a row. -/
def onCell (lib : Lib) (st : ScrapeState) (cell : Node) : ScrapeState :=
  let htmlContent := cell.textOf
  if isMarker htmlContent then
    let st1 :=
      if st.mealOptions.len > 0 then
        { st with meals := st.meals.set st.currentMealType st.mealOptions, mealOptions := none }
      else st
    { st1 with currentMealType := mapMealType htmlContent }
  else
    let meals := extractMealColly lib cell
    if meals ≠ none then { st with mealOptions := st.mealOptions.appendAll meals } else st

/-- The cells `e.ForEach("tr", row.ForEach("td", ...))` visits, in order:
for every `tr` below the block, every `td` below that row. -/
def tableCells (e : Node) : List Node :=
  (e.find (Node.hasTag tagTr)).flatMap (fun row => row.find (Node.hasTag tagTd))

/-- The callback registered for `figure.wp-block-table`. -/
def onFigure (lib : Lib) (st : ScrapeState) (e : Node) : ScrapeState :=
  if st.dateFound && !st.tableFound then
    (e.find (Node.hasTag tagTr)).foldl
      (fun st row => (row.find (Node.hasTag tagTd)).foldl (onCell lib) st)
      { st with tableFound := true }
  else st

/-- The selector `figure.wp-block-table`. -/
def isFigureTable (n : Node) : Bool :=
  n.hasTag tagFigure && n.hasClass classTable

/-- Model of colly's `handleOnHTML`, which runs
`for _, cc := range c.htmlCallbacks { doc.Find(cc.Selector).Each(...) }`:
the registered callbacks are taken in the order of registration, and each
one is run on all the elements its selector matches, in document order,
before the next callback is looked at.  `scrape` registers `strong` first
and `figure.wp-block-table` second, so every `strong` node of the page is
handled before any table block. -/
def runCallbacks (lib : Lib) (formattedDate : Str) (doc : Node) (st : ScrapeState) :
    ScrapeState :=
  (doc.find isFigureTable).foldl (onFigure lib)
    ((doc.find (Node.hasTag tagStrong)).foldl (onStrong formattedDate) st)

/-- The state `scrape` starts the visit with. -/
def initState : ScrapeState :=
  { meals := [], currentMealType := [], mealOptions := none,
    dateFound := false, tableFound := false }

/-- The flush after the visit: the remaining items go under the current
period. -/
def finalMeals (st : ScrapeState) : MealsMap :=
  if st.mealOptions.len > 0 then st.meals.set st.currentMealType st.mealOptions
  else st.meals

/-- Translation of `scrape`: the returned record and error, and the world
after the call. -/
def scrape (lib : Lib) (dateToScrape : Time) (w : World) :
    (Response × Option Str) × World :=
  let formattedDate := getFormattedDate dateToScrape
  let w1 := { w with visits := w.visits + 1 }
  match w.page with
  | .error err => ((Response.zero, some err), w1)
  | .ok doc =>
    let st := runCallbacks lib formattedDate doc initState
    (({ Date := formattedDate,
        ImgMenu := none,
        RuName := "JARDIM BOTÂNICO".toList,
        RuUrl := "https://pra.ufpr.br/ru/cardapio-ru-jardim-botanico/".toList,
        RuCode := "BOT".toList,
        Served := some [breakfast, lunch, dinner],
        Meals := some (finalMeals st) }, none), w1)

/-- Translation of `handler`. -/
def handler (lib : Lib) (request : Request) (w : World) :
    (Response × Option Str) × World :=
  if request.Date = [] then
    match scrape lib w.now w with
    | ((_, some err), w1) => ((Response.zero, some err), w1)
    | ((responseData, none), w1) => ((responseData, none), w1)
  else
    match timeParse request.Date with
    | .error err => ((Response.zero, some err), w)
    | .ok dateToScrape =>
      match scrape lib dateToScrape w with
      | ((_, some err), w1) => ((Response.zero, some err), w1)
      | ((responseData, none), w1) => ((responseData, none), w1)

/-! ## A reference instance of `Lib` for flat markup

Used to evaluate the functions on concrete pages: markup made of text,
comments and tags without nesting. -/

/-- Elements rendered without a closing tag. -/
def isVoid (tag : Str) : Bool :=
  tag = "br".toList || tag = tagImg || tag = "hr".toList

/-- Rendering of attributes. -/
def renderAttrs : List (Str × Str) → Str
  | [] => []
  | (k, v) :: rest => ' ' :: k ++ '=' :: '"' :: v ++ '"' :: renderAttrs rest

mutual
/-- Rendering of one node; text is written as it is. -/
def renderNode : Node → Str
  | .document cs => renderNodes cs
  | .text d => d
  | .comment d => "<!--".toList ++ d ++ "-->".toList
  | .elem tag attrs cs =>
    if isVoid tag then '<' :: tag ++ renderAttrs attrs ++ "/>".toList
    else '<' :: tag ++ renderAttrs attrs ++ '>' :: renderNodes cs ++ '<' :: '/' :: tag ++ ['>']
/-- Rendering of a list of siblings. -/
def renderNodes : List Node → Str
  | [] => []
  | n :: ns => renderNode n ++ renderNodes ns
end

/-- Inner markup of a node. -/
def renderInner : Node → Str
  | .document cs => renderNodes cs
  | .text _ => []
  | .comment _ => []
  | .elem _ _ cs => renderNodes cs

/-- Cuts markup into text runs (`false`) and tag bodies (`true`). -/
def scanMarkup : Bool → Str → Str → List (Bool × Str)
  | _, acc, [] => [(false, acc.reverse)]
  | false, acc, c :: cs =>
    if c = '<' then (false, acc.reverse) :: scanMarkup true [] cs
    else scanMarkup false (c :: acc) cs
  | true, acc, c :: cs =>
    if c = '>' then (true, acc.reverse) :: scanMarkup false [] cs
    else scanMarkup true (c :: acc) cs

/-- Reads the `key="value"` pairs of a tag body; mode 0 reads a key, mode 1
waits for the opening quote, mode 2 reads a value. -/
def scanAttrs : Nat → Str → Str → Str → List (Str × Str)
  | _, _, _, [] => []
  | 0, key, val, c :: cs =>
    if c = '=' then scanAttrs 1 key val cs
    else if c = ' ' ∨ c = '/' then scanAttrs 0 [] [] cs
    else scanAttrs 0 (c :: key) val cs
  | 1, key, val, c :: cs =>
    if c = '"' then scanAttrs 2 key val cs else scanAttrs 0 [] [] cs
  | _ + 2, key, val, c :: cs =>
    if c = '"' then (key.reverse, val.reverse) :: scanAttrs 0 [] [] cs
    else scanAttrs 2 key (c :: val) cs

/-- The node of one piece of scanned markup: closing tags and empty text
runs give none. -/
def pieceNode : Bool × Str → Option Node
  | (false, []) => none
  | (false, t) => some (.text t)
  | (true, '/' :: _) => none
  | (true, body) =>
    let name := body.takeWhile (fun c => !(c = ' ' || c = '/'))
    some (.elem name (scanAttrs 0 [] [] (body.drop name.length)) [])

/-- Cuts markup into comments (`true`, with their data) and the runs between
them (`false`): a comment starts at `<!--` and runs to the next `-->`, or to
the end of the input when it is not closed.  `skip` counts the characters
of a delimiter still to be passed over. -/
def cutComments : Bool → Nat → Str → Str → List (Bool × Str)
  | inComment, _, acc, [] => [(inComment, acc.reverse)]
  | inComment, skip + 1, acc, _ :: cs => cutComments inComment skip acc cs
  | false, 0, acc, c :: cs =>
    if "<!--".toList.isPrefixOf (c :: cs) then
      (false, acc.reverse) :: cutComments true 3 [] cs
    else cutComments false 0 (c :: acc) cs
  | true, 0, acc, c :: cs =>
    if "-->".toList.isPrefixOf (c :: cs) then
      (true, acc.reverse) :: cutComments false 2 [] cs
    else cutComments true 0 (c :: acc) cs

/-- The nodes of one run of markup: a comment node, or the text and
elements of a run between comments. -/
def runNodes : Bool × Str → List Node
  | (true, d) => [.comment d]
  | (false, t) => (scanMarkup false [] t).filterMap pieceNode

/-- Parses flat markup into a document `html > head, body > nodes`. -/
def flatParse (s : Str) : Node :=
  .document [.elem "html".toList [] [.elem "head".toList [] [],
    .elem "body".toList [] ((cutComments false 0 [] s).flatMap runNodes)]]

/-- The reference instance: both operations succeed. -/
def flatLib : Lib :=
  { html := fun n => .ok (renderInner n),
    newDocumentFromReader := fun s => .ok (flatParse s) }

/-! ## Specification-side definitions -/

/-- The item the specification assigns to one fragment of a cell: none when
the fragment does not parse or its tag-stripped, trimmed text is empty;
otherwise that text as name and the `src` values of the fragment's `img`
elements, in document order, as a non-nil icon list. -/
def itemOfFragment (lib : Lib) (part : Str) : Option Meal :=
  match lib.newDocumentFromReader part with
  | .error _ => none
  | .ok d =>
    if trimSpace d.textOf = [] then none
    else some { Name := trimSpace d.textOf,
                Icons := some ((d.find (Node.hasTag tagImg)).filterMap
                  (Node.attr attrSrc)) }

/-- The items a cell contributes when it is a content cell. -/
def cellItems (lib : Lib) (cell : Node) : List Meal :=
  (extractMealColly lib cell).elems

/-- The items of the content cells that follow a marker, up to the next
marker cell or the end of the table, in document order. -/
def blockItems (lib : Lib) (cells : List Node) : List Meal :=
  (cells.takeWhile (fun c => !isMarker c.textOf)).flatMap (cellItems lib)

/-- The blocks of a table as the specification describes them: every marker
cell opens a block labelled with its period, and the block holds the items
of the content cells up to the next marker cell or the end of the table.
Content cells in front of the first marker belong to no block. -/
def blocks (lib : Lib) : List Node → List (Str × List Meal)
  | [] => []
  | c :: cs =>
    if isMarker c.textOf then (mapMealType c.textOf, blockItems lib cs) :: blocks lib cs
    else blocks lib cs

/-- Committing a list of blocks to a map, in order: a block with items is
stored under its period, a block without items is passed over. -/
def commitAll (bs : List (Str × List Meal)) (m : MealsMap) : MealsMap :=
  bs.foldl (fun m b => if b.2 = [] then m else m.set b.1 (some b.2)) m

/-! ## The walked cells and example pages -/

/-- Whether some `strong` node of the page carries the formatted date. -/
def dateMatches (fd : Str) (doc : Node) : Bool :=
  (doc.find (Node.hasTag tagStrong)).any (fun e => contains (trimSpace e.textOf) fd)

/-- The cells `scrape` walks on a page: those of the first
`figure.wp-block-table` block of the document when some `strong` node
carries the date, none otherwise. -/
def walkedCells (fd : Str) (doc : Node) : List Node :=
  if dateMatches fd doc then
    match doc.find isFigureTable with
    | [] => []
    | fig :: _ => tableCells fig
  else []

/-- A `td` cell. -/
def td (children : List Node) : Node := .elem tagTd [] children
/-- A `tr` row. -/
def tr (children : List Node) : Node := .elem tagTr [] children
/-- A `figure.wp-block-table` block with the given rows. -/
def figureTable (rows : List Node) : Node :=
  .elem tagFigure [(attrClass, classTable)]
    [.elem "table".toList [] [.elem "tbody".toList [] rows]]
/-- A paragraph holding one `strong` node with the given text. -/
def strongPara (t : String) : Node :=
  .elem "p".toList [] [.elem tagStrong [] [.text t.toList]]
/-- A page with the given body. -/
def pageOf (body : List Node) : Node :=
  .document [.elem "html".toList [] [.elem "head".toList [] [], .elem "body".toList [] body]]
/-- A meal item without icons. -/
def plainMeal (name : String) : Meal := { Name := name.toList, Icons := some [] }
/-- A world in which the visit yields the given page. -/
def worldOf (doc : Node) : World :=
  { now := { year := 2024, month := 1, day := 1 }, page := .ok doc, visits := 0 }

/-- The cell `Rice<br/>Beans<img src="x.png"/>`. -/
def riceCell : Node :=
  td [.text "Rice".toList, .elem "br".toList [] [], .text "Beans".toList,
    .elem tagImg [(attrSrc, "x.png".toList)] []]

/-- A cell holding only an image and line breaks. -/
def decorCell : Node :=
  td [.elem "br".toList [] [], .elem tagImg [(attrSrc, "x.png".toList)] [],
    .text "  ".toList, .elem "br".toList [] []]

/-- A cell holding only a comment, with a line-break marker inside the
comment. -/
def commentCell : Node :=
  td [.comment " Arroz<br/>Feijao ".toList]

/-- The 25th of March 2024. -/
def march25 : Time := { year := 2024, month := 3, day := 25 }

/-- A lunch marker, two one-line content cells, a dinner marker, one
one-line content cell. -/
def lunchDinnerTable : Node :=
  figureTable [tr [td [.text "ALMOÇO".toList]],
    tr [td [.text "Rice".toList], td [.text "Beans".toList]],
    tr [td [.text "JANTAR".toList]], tr [td [.text "Soup".toList]]]

/-- A page with the date of `march25` in front of `lunchDinnerTable`. -/
def lunchDinnerPage : Node :=
  pageOf [strongPara "Segunda-feira 25/03/24", lunchDinnerTable]

/-- A page that lists another day only, followed by a table. -/
def otherDayPage : Node :=
  pageOf [strongPara "Domingo 24/03/24", lunchDinnerTable]

/-- A lunch marker, one content cell, a second lunch marker, one content
cell. -/
def repeatedLunchTable : Node :=
  figureTable [tr [td [.text "ALMOÇO".toList]], tr [td [.text "Rice".toList]],
    tr [td [.text "ALMOÇO".toList]], tr [td [.text "Pasta".toList]]]

/-- A page with the date of `march25` in front of `repeatedLunchTable`. -/
def repeatedLunchPage : Node :=
  pageOf [strongPara "Segunda-feira 25/03/24", repeatedLunchTable]

/-- A content cell in front of the first marker cell. -/
def leadingContentTable : Node :=
  figureTable [tr [td [.text "Rice".toList]], tr [td [.text "ALMOÇO".toList]],
    tr [td [.text "Beans".toList]]]

/-- A page with the date of `march25` in front of `leadingContentTable`. -/
def leadingContentPage : Node :=
  pageOf [strongPara "Segunda-feira 25/03/24", leadingContentTable]

/-- A lunch marker and one content cell. -/
def pastaTable : Node :=
  figureTable [tr [td [.text "ALMOÇO".toList]], tr [td [.text "Pasta".toList]]]

/-- A page that lists two days, each followed by its own table. -/
def twoDayPage : Node :=
  pageOf [strongPara "Domingo 24/03/24", lunchDinnerTable,
    strongPara "Segunda-feira 25/03/24", pastaTable]

/-- The second day of `twoDayPage` alone. -/
def secondDayPage : Node :=
  pageOf [strongPara "Segunda-feira 25/03/24", pastaTable]

/-- A world in which the visit fails. -/
def failedWorld : World :=
  { now := { year := 2024, month := 1, day := 1 }, page := .error "timeout".toList,
    visits := 0 }

/-! ## Strings: facts about the models -/

theorem contains_iff (s sub : Str) : contains s sub = true ↔ sub <:+: s := by
  unfold contains
  rw [List.any_eq_true]
  constructor
  · rintro ⟨t, ht, hp⟩
    rw [List.mem_tails] at ht
    rw [List.isPrefixOf_iff_prefix] at hp
    exact List.infix_iff_prefix_suffix.mpr ⟨t, hp, ht⟩
  · intro h
    obtain ⟨t, hp, ht⟩ := List.infix_iff_prefix_suffix.mp h
    exact ⟨t, (List.mem_tails _ _).mpr ht, List.isPrefixOf_iff_prefix.mpr hp⟩

theorem trimSpace_getLast (s : Str) (c : Char) (h : (trimSpace s).getLast? = some c) :
    isSpace c = false := by
  unfold trimSpace at h
  have hne : (s.dropWhile isSpace).rdropWhile isSpace ≠ [] := by
    intro h0
    rw [h0] at h
    simp at h
  have := List.rdropWhile_last_not isSpace (s.dropWhile isSpace) hne
  rw [List.getLast?_eq_getLast _ hne] at h
  simp only [Option.some.injEq] at h
  rw [h] at this
  simpa using this

theorem trimSpace_head (s : Str) (c : Char) (h : (trimSpace s).head? = some c) :
    isSpace c = false := by
  unfold trimSpace at h
  obtain ⟨t, ht⟩ := List.rdropWhile_prefix isSpace (l := s.dropWhile isSpace)
  cases hr : (s.dropWhile isSpace).rdropWhile isSpace with
  | nil => rw [hr] at h; simp at h
  | cons a r =>
    rw [hr] at h ht
    simp only [List.head?_cons, Option.some.injEq] at h
    subst h
    have hd : (s.dropWhile isSpace).head? = some a := by
      rw [← ht]; rfl
    have := List.head?_dropWhile_not isSpace s
    rw [hd] at this
    simpa using this

theorem trimSpace_idem (s : Str) : trimSpace (trimSpace s) = trimSpace s := by
  have h1 : (trimSpace s).dropWhile isSpace = trimSpace s := by
    cases ht : trimSpace s with
    | nil => rfl
    | cons a r =>
      have := trimSpace_head s a (by rw [ht]; rfl)
      simp [List.dropWhile_cons, this]
  have h2 : (trimSpace s).rdropWhile isSpace = trimSpace s := by
    rw [List.rdropWhile_eq_self_iff]
    intro hl
    have := trimSpace_getLast s _ (List.getLast?_eq_getLast _ hl)
    simp [this]
  have h3 : trimSpace (trimSpace s) =
      ((trimSpace s).dropWhile isSpace).rdropWhile isSpace := rfl
  rw [h3, h1, h2]

theorem splitAux_ne_nil (sep : Str) (k : Nat) (acc s : Str) : splitAux sep k acc s ≠ [] := by
  induction s generalizing k acc with
  | nil => cases k <;> simp [splitAux]
  | cons c cs ih =>
    cases k with
    | succ k => simp only [splitAux]; exact ih k acc
    | zero =>
      simp only [splitAux]
      split
      · simp
      · exact ih 0 (c :: acc)

theorem intercalate_cons_of_ne_nil (sep x : Str) (xs : List Str) (h : xs ≠ []) :
    List.intercalate sep (x :: xs) = x ++ sep ++ List.intercalate sep xs := by
  cases xs with
  | nil => exact absurd rfl h
  | cons y ys => simp [List.intercalate, List.intersperse]

theorem splitAux_intercalate (sep : Str) (k : Nat) (acc s : Str) (hsep : sep ≠ []) :
    List.intercalate sep (splitAux sep k acc s) = acc.reverse ++ s.drop k := by
  induction s generalizing k acc with
  | nil => cases k <;> simp [splitAux, List.intercalate]
  | cons c cs ih =>
    cases k with
    | succ k => simp only [splitAux, List.drop_succ_cons]; exact ih k acc
    | zero =>
      simp only [splitAux]
      split
      · rename_i hp
        rw [intercalate_cons_of_ne_nil _ _ _ (splitAux_ne_nil _ _ _ _), ih]
        obtain ⟨t, ht⟩ := List.isPrefixOf_iff_prefix.mp hp
        cases sep with
        | nil => exact absurd rfl hsep
        | cons a as =>
          simp only [List.cons_append, List.cons.injEq] at ht
          obtain ⟨h1, h2⟩ := ht
          subst h1
          rw [← h2]
          simp
      · rw [ih]
        simp

/-- Sanity of the model of `strings.Split`: the pieces, joined with the
separator, give the string back. -/
theorem split_intercalate (s sep : Str) (hsep : sep ≠ []) :
    List.intercalate sep (split s sep) = s := by
  unfold split
  rw [splitAux_intercalate sep 0 [] s hsep]
  simp

/-! ## Slices -/

theorem Slice.elems_appendAll {α : Type} (s xs : Slice α) :
    (s.appendAll xs).elems = s.elems ++ xs.elems := by
  unfold Slice.appendAll
  cases h : xs.elems with
  | nil => simp
  | cons y ys => simp [Slice.elems]

theorem Slice.eq_some_of_len_pos {α : Type} (s : Slice α) (h : s.len > 0) :
    s = some s.elems := by
  cases s with
  | none => simp [Slice.len, Slice.elems] at h
  | some xs => rfl

/-! ## The meal-item parser -/

theorem foldl_collectIcon (imgs : List Node) (acc : List Str) :
    imgs.foldl collectIcon (some acc) =
      some (acc ++ imgs.filterMap (Node.attr attrSrc)) := by
  induction imgs generalizing acc with
  | nil => simp
  | cons n ns ih =>
    rw [List.foldl_cons, List.filterMap_cons]
    cases h : Node.attr attrSrc n with
    | none =>
      have hstep : collectIcon (some acc) n = some acc := by
        unfold collectIcon; rw [h]
      rw [hstep, ih]
    | some src =>
      have hstep : collectIcon (some acc) n = some (acc ++ [src]) := by
        unfold collectIcon; rw [h]; rfl
      rw [hstep, ih]
      simp

theorem extractPart_eq (lib : Lib) (meals : Slice Meal) (part : Str) :
    extractPart lib meals part =
      match itemOfFragment lib part with
      | none => meals
      | some item => some (meals.elems ++ [item]) := by
  unfold extractPart itemOfFragment
  cases h : lib.newDocumentFromReader part with
  | error e => rfl
  | ok d =>
    simp only
    rw [foldl_collectIcon]
    by_cases hn : trimSpace d.textOf = []
    · simp [hn]
    · simp [hn, Slice.push]

theorem foldl_extractPart_some (lib : Lib) (parts : List Str) (acc : List Meal) :
    parts.foldl (extractPart lib) (some acc) =
      some (acc ++ parts.filterMap (itemOfFragment lib)) := by
  induction parts generalizing acc with
  | nil => simp
  | cons p ps ih =>
    rw [List.foldl_cons, extractPart_eq, List.filterMap_cons]
    cases h : itemOfFragment lib p with
    | none => simpa using ih acc
    | some item =>
      simp only [Slice.elems]
      rw [ih]
      simp

theorem foldl_extractPart_none (lib : Lib) (parts : List Str) :
    parts.foldl (extractPart lib) none =
      match parts.filterMap (itemOfFragment lib) with
      | [] => none
      | item :: items => some (item :: items) := by
  induction parts with
  | nil => simp
  | cons p ps ih =>
    rw [List.foldl_cons, extractPart_eq, List.filterMap_cons]
    cases h : itemOfFragment lib p with
    | none => simpa using ih
    | some item =>
      simp only [Slice.elems]
      rw [foldl_extractPart_some]
      simp

theorem extractMealColly_ok (lib : Lib) (cell : Node) (h : Str)
    (hh : lib.html cell = .ok h) :
    extractMealColly lib cell =
      match (split h brMarker).filterMap (itemOfFragment lib) with
      | [] => none
      | item :: items => some (item :: items) := by
  unfold extractMealColly
  rw [hh]
  exact foldl_extractPart_none lib _

theorem extractMealColly_cases (lib : Lib) (cell : Node) :
    extractMealColly lib cell = none ∨
      ∃ item items, extractMealColly lib cell = some (item :: items) := by
  cases hh : lib.html cell with
  | error e => left; unfold extractMealColly; rw [hh]
  | ok h =>
    rw [extractMealColly_ok lib cell h hh]
    cases (split h brMarker).filterMap (itemOfFragment lib) with
    | nil => left; rfl
    | cons a r => right; exact ⟨a, r, rfl⟩

theorem itemOfFragment_name (lib : Lib) (part : Str) (item : Meal)
    (h : itemOfFragment lib part = some item) :
    item.Name ≠ [] ∧ ∃ d, lib.newDocumentFromReader part = .ok d ∧
      item.Name = trimSpace d.textOf := by
  unfold itemOfFragment at h
  cases hd : lib.newDocumentFromReader part with
  | error e => rw [hd] at h; simp at h
  | ok d =>
    rw [hd] at h
    by_cases hn : trimSpace d.textOf = []
    · simp [hn] at h
    · simp only [hn, if_false, Option.some.injEq] at h
      subst h
      exact ⟨hn, d, rfl, rfl⟩

theorem cellItems_name (lib : Lib) (cell : Node) (item : Meal)
    (h : item ∈ cellItems lib cell) :
    item.Name ≠ [] ∧ trimSpace item.Name = item.Name := by
  unfold cellItems at h
  cases hh : lib.html cell with
  | error e =>
    unfold extractMealColly at h
    rw [hh] at h
    simp [Slice.elems] at h
  | ok hm =>
    rw [extractMealColly_ok lib cell hm hh] at h
    have hmem : item ∈ (split hm brMarker).filterMap (itemOfFragment lib) := by
      cases hf : (split hm brMarker).filterMap (itemOfFragment lib) with
      | nil => rw [hf] at h; simp [Slice.elems] at h
      | cons a r => rw [hf] at h; simpa [Slice.elems] using h
    obtain ⟨part, _, hp⟩ := List.mem_filterMap.mp hmem
    obtain ⟨hne, d, _, hd⟩ := itemOfFragment_name lib part item hp
    exact ⟨hne, by rw [hd]; exact trimSpace_idem _⟩

/-! ## Maps -/

theorem MealsMap.get_set_self (m : MealsMap) (k : Str) (v : Slice Meal) :
    (m.set k v).get k = some v := by
  induction m with
  | nil => simp [MealsMap.set, MealsMap.get]
  | cons kv m ih =>
    obtain ⟨k1, v1⟩ := kv
    by_cases h : k1 = k
    · simp [MealsMap.set, MealsMap.get, h]
    · simp [MealsMap.set, MealsMap.get, h, ih]

theorem MealsMap.get_set_ne (m : MealsMap) (k k2 : Str) (v : Slice Meal) (hne : k ≠ k2) :
    (m.set k v).get k2 = m.get k2 := by
  induction m with
  | nil => simp [MealsMap.set, MealsMap.get, hne]
  | cons kv m ih =>
    obtain ⟨k1, v1⟩ := kv
    by_cases h : k1 = k
    · subst h
      simp [MealsMap.set, MealsMap.get, hne]
    · by_cases h2 : k1 = k2
      · subst h2
        simp [MealsMap.set, MealsMap.get, h]
      · simp [MealsMap.set, MealsMap.get, h, h2, ih]

theorem MealsMap.mem_keys_iff (m : MealsMap) (k : Str) :
    k ∈ m.keys ↔ m.get k ≠ none := by
  induction m with
  | nil => simp [MealsMap.keys, MealsMap.get]
  | cons kv m ih =>
    obtain ⟨k1, v1⟩ := kv
    by_cases h : k1 = k
    · simp [MealsMap.keys, MealsMap.get, h]
    · have h2 : ¬ k = k1 := fun e => h e.symm
      simp only [MealsMap.keys] at ih
      simp [MealsMap.keys, MealsMap.get, h, h2, ih]

theorem MealsMap.mem_keys_set (m : MealsMap) (k k2 : Str) (v : Slice Meal) :
    k2 ∈ (m.set k v).keys ↔ k2 = k ∨ k2 ∈ m.keys := by
  rw [MealsMap.mem_keys_iff, MealsMap.mem_keys_iff]
  by_cases h : k = k2
  · subst h
    simp [MealsMap.get_set_self]
  · have h2 : ¬ k2 = k := fun e => h e.symm
    rw [MealsMap.get_set_ne m k k2 v h]
    simp [h2]

theorem MealsMap.nodup_keys_set (m : MealsMap) (k : Str) (v : Slice Meal)
    (hm : m.keys.Nodup) : (m.set k v).keys.Nodup := by
  induction m with
  | nil => simp [MealsMap.set, MealsMap.keys]
  | cons kv m ih =>
    obtain ⟨k1, v1⟩ := kv
    have hm2 : k1 ∉ MealsMap.keys m ∧ (MealsMap.keys m).Nodup := by
      simpa [MealsMap.keys] using hm
    by_cases h : k1 = k
    · subst h
      simpa [MealsMap.set, MealsMap.keys] using hm
    · have hk : k1 ∉ MealsMap.keys (MealsMap.set m k v) := by
        rw [MealsMap.mem_keys_set]
        rintro (e | e)
        · exact h e
        · exact hm2.1 e
      have := ih hm2.2
      simp only [MealsMap.keys] at this hk
      simp [MealsMap.set, MealsMap.keys, h, this]
      simpa using hk

/-! ## Committing blocks -/

theorem commitAll_nil (m : MealsMap) : commitAll [] m = m := rfl

theorem commitAll_cons (b : Str × List Meal) (bs : List (Str × List Meal)) (m : MealsMap) :
    commitAll (b :: bs) m = commitAll bs (if b.2 = [] then m else m.set b.1 (some b.2)) := rfl

theorem commitAll_append (bs1 bs2 : List (Str × List Meal)) (m : MealsMap) :
    commitAll (bs1 ++ bs2) m = commitAll bs2 (commitAll bs1 m) := by
  unfold commitAll
  rw [List.foldl_append]

theorem get_commitAll_skip (k : Str) (bs : List (Str × List Meal)) (m : MealsMap)
    (h : ∀ b ∈ bs, b.1 = k → b.2 = []) : (commitAll bs m).get k = m.get k := by
  induction bs generalizing m with
  | nil => rfl
  | cons b bs ih =>
    rw [commitAll_cons, ih _ (fun b2 hb2 => h b2 (List.mem_cons_of_mem _ hb2))]
    by_cases he : b.2 = []
    · simp [he]
    · have hne : b.1 ≠ k := fun e => he (h b (List.mem_cons_self _ _) e)
      simp [he, MealsMap.get_set_ne _ _ _ _ hne]

theorem get_commitAll_last (k : Str) (items : List Meal) (bs1 bs3 : List (Str × List Meal))
    (m : MealsMap) (hne : items ≠ []) (h3 : ∀ b ∈ bs3, b.1 = k → b.2 = []) :
    (commitAll (bs1 ++ (k, items) :: bs3) m).get k = some (some items) := by
  rw [commitAll_append, commitAll_cons, get_commitAll_skip k bs3 _ h3]
  simp [hne, MealsMap.get_set_self]

theorem mem_keys_commitAll (k : Str) (bs : List (Str × List Meal)) (m : MealsMap) :
    k ∈ (commitAll bs m).keys ↔ k ∈ m.keys ∨ ∃ b ∈ bs, b.1 = k ∧ b.2 ≠ [] := by
  induction bs generalizing m with
  | nil => simp [commitAll_nil]
  | cons b bs ih =>
    rw [commitAll_cons, ih]
    by_cases he : b.2 = []
    · simp [he]
    · simp only [he, if_false, MealsMap.mem_keys_set, List.mem_cons, exists_eq_or_imp]
      constructor
      · rintro ((e | e) | e)
        · exact Or.inr (Or.inl ⟨e.symm, he⟩)
        · exact Or.inl e
        · exact Or.inr (Or.inr e)
      · rintro (e | ⟨e, _⟩ | e)
        · exact Or.inl (Or.inr e)
        · exact Or.inl (Or.inl e.symm)
        · exact Or.inr e

theorem nodup_keys_commitAll (bs : List (Str × List Meal)) (m : MealsMap)
    (hm : m.keys.Nodup) : (commitAll bs m).keys.Nodup := by
  induction bs generalizing m with
  | nil => exact hm
  | cons b bs ih =>
    rw [commitAll_cons]
    apply ih
    by_cases he : b.2 = []
    · simpa [he] using hm
    · simpa [he] using MealsMap.nodup_keys_set m b.1 (some b.2) hm

/-! ## The cell walk -/

theorem onCell_marker (lib : Lib) (st : ScrapeState) (c : Node)
    (h : isMarker c.textOf = true) :
    (onCell lib st c).meals =
        (if st.mealOptions.elems = [] then st.meals
         else st.meals.set st.currentMealType (some st.mealOptions.elems)) ∧
      (onCell lib st c).currentMealType = mapMealType c.textOf ∧
      (onCell lib st c).mealOptions.elems = [] ∧
      (onCell lib st c).dateFound = st.dateFound ∧
      (onCell lib st c).tableFound = st.tableFound := by
  unfold onCell
  simp only [h, if_true]
  cases hs : st.mealOptions with
  | none => simp [Slice.len, Slice.elems, hs]
  | some xs =>
    cases xs with
    | nil => simp [Slice.len, Slice.elems, hs]
    | cons x xs => simp [Slice.len, Slice.elems, hs]

theorem onCell_content (lib : Lib) (st : ScrapeState) (c : Node)
    (h : isMarker c.textOf = false) :
    (onCell lib st c).meals = st.meals ∧
      (onCell lib st c).currentMealType = st.currentMealType ∧
      (onCell lib st c).mealOptions.elems = st.mealOptions.elems ++ cellItems lib c ∧
      (onCell lib st c).dateFound = st.dateFound ∧
      (onCell lib st c).tableFound = st.tableFound := by
  unfold onCell cellItems
  simp only [h, Bool.false_eq_true, if_false]
  by_cases hn : extractMealColly lib c = none
  · simp [hn, Slice.elems]
  · simp [hn, Slice.elems_appendAll]

theorem blockItems_nil (lib : Lib) : blockItems lib [] = [] := rfl

theorem blockItems_marker (lib : Lib) (c : Node) (cs : List Node)
    (h : isMarker c.textOf = true) : blockItems lib (c :: cs) = [] := by
  simp [blockItems, List.takeWhile_cons, h]

theorem blockItems_content (lib : Lib) (c : Node) (cs : List Node)
    (h : isMarker c.textOf = false) :
    blockItems lib (c :: cs) = cellItems lib c ++ blockItems lib cs := by
  simp [blockItems, List.takeWhile_cons, h]

theorem blocks_marker (lib : Lib) (c : Node) (cs : List Node)
    (h : isMarker c.textOf = true) :
    blocks lib (c :: cs) = (mapMealType c.textOf, blockItems lib cs) :: blocks lib cs := by
  simp [blocks, h]

theorem blocks_content (lib : Lib) (c : Node) (cs : List Node)
    (h : isMarker c.textOf = false) : blocks lib (c :: cs) = blocks lib cs := by
  simp [blocks, h]

theorem finalMeals_eq (st : ScrapeState) :
    finalMeals st =
      (if st.mealOptions.elems = [] then st.meals
       else st.meals.set st.currentMealType (some st.mealOptions.elems)) := by
  unfold finalMeals
  cases hs : st.mealOptions with
  | none => simp [Slice.len, Slice.elems]
  | some xs =>
    cases xs with
    | nil => simp [Slice.len, Slice.elems]
    | cons x xs => simp [Slice.len, Slice.elems]

/-- The walk over the cells followed by the final flush commits the block
that was open when the walk started and then the blocks of the cells. -/
theorem walk_final (lib : Lib) (cells : List Node) (st : ScrapeState) :
    finalMeals (cells.foldl (onCell lib) st) =
      commitAll ((st.currentMealType, st.mealOptions.elems ++ blockItems lib cells) ::
        blocks lib cells) st.meals := by
  induction cells generalizing st with
  | nil =>
    rw [List.foldl_nil, finalMeals_eq, blockItems_nil, List.append_nil]
    rfl
  | cons c cs ih =>
    rw [List.foldl_cons, ih]
    cases h : isMarker c.textOf with
    | true =>
      obtain ⟨h1, h2, h3, _, _⟩ := onCell_marker lib st c h
      rw [h1, h2, h3, blockItems_marker lib c cs h, blocks_marker lib c cs h,
        List.append_nil, List.nil_append]
      rfl
    | false =>
      obtain ⟨h1, h2, h3, _, _⟩ := onCell_content lib st c h
      rw [h1, h2, h3, blockItems_content lib c cs h, blocks_content lib c cs h,
        List.append_assoc]

theorem walk_flags (lib : Lib) (cells : List Node) (st : ScrapeState) :
    (cells.foldl (onCell lib) st).dateFound = st.dateFound ∧
      (cells.foldl (onCell lib) st).tableFound = st.tableFound := by
  induction cells generalizing st with
  | nil => exact ⟨rfl, rfl⟩
  | cons c cs ih =>
    rw [List.foldl_cons]
    obtain ⟨i1, i2⟩ := ih (onCell lib st c)
    cases h : isMarker c.textOf with
    | true =>
      obtain ⟨_, _, _, h4, h5⟩ := onCell_marker lib st c h
      exact ⟨i1.trans h4, i2.trans h5⟩
    | false =>
      obtain ⟨_, _, _, h4, h5⟩ := onCell_content lib st c h
      exact ⟨i1.trans h4, i2.trans h5⟩

theorem foldl_rows (lib : Lib) (rows : List Node) (st : ScrapeState) :
    rows.foldl (fun st row => (row.find (Node.hasTag tagTd)).foldl (onCell lib) st) st =
      (rows.flatMap (fun row => row.find (Node.hasTag tagTd))).foldl (onCell lib) st := by
  induction rows generalizing st with
  | nil => rfl
  | cons r rs ih => rw [List.foldl_cons, ih, List.flatMap_cons, List.foldl_append]

theorem onFigure_skip (lib : Lib) (st : ScrapeState) (e : Node)
    (h : (st.dateFound && !st.tableFound) = false) : onFigure lib st e = st := by
  unfold onFigure
  simp [h]

theorem onFigure_walk (lib : Lib) (st : ScrapeState) (e : Node)
    (hd : st.dateFound = true) (ht : st.tableFound = false) :
    onFigure lib st e = (tableCells e).foldl (onCell lib) { st with tableFound := true } := by
  unfold onFigure tableCells
  simp only [hd, ht, Bool.not_false, Bool.and_self, if_true]
  exact foldl_rows lib _ _

theorem foldl_onFigure_skip (lib : Lib) (figs : List Node) (st : ScrapeState)
    (h : (st.dateFound && !st.tableFound) = false) : figs.foldl (onFigure lib) st = st := by
  induction figs with
  | nil => rfl
  | cons f fs ih => rw [List.foldl_cons, onFigure_skip lib st f h, ih]

theorem foldl_onStrong_found (fd : Str) (strongs : List Node) (st : ScrapeState)
    (h : st.dateFound = true) : strongs.foldl (onStrong fd) st = st := by
  induction strongs with
  | nil => rfl
  | cons e es ih =>
    have : onStrong fd st e = st := by
      unfold onStrong
      simp [h]
    rw [List.foldl_cons, this, ih]

theorem foldl_onStrong_init (fd : Str) (strongs : List Node) :
    strongs.foldl (onStrong fd) initState =
      { initState with
        dateFound := strongs.any (fun e => contains (trimSpace e.textOf) fd) } := by
  induction strongs with
  | nil => rfl
  | cons e es ih =>
    rw [List.foldl_cons, List.any_cons]
    cases hc : contains (trimSpace e.textOf) fd with
    | true =>
      have : onStrong fd initState e = { initState with dateFound := true } := by
        unfold onStrong
        simp [hc, initState]
      rw [this, foldl_onStrong_found fd es _ rfl]
      rfl
    | false =>
      have : onStrong fd initState e = initState := by
        unfold onStrong
        simp [hc, initState]
      rw [this, ih]
      rfl

theorem finalMeals_runCallbacks (lib : Lib) (fd : Str) (doc : Node) :
    finalMeals (runCallbacks lib fd doc initState) =
      finalMeals ((walkedCells fd doc).foldl (onCell lib) initState) := by
  unfold runCallbacks walkedCells dateMatches
  rw [foldl_onStrong_init]
  cases hm : (doc.find (Node.hasTag tagStrong)).any
      (fun e => contains (trimSpace e.textOf) fd) with
  | false =>
    rw [foldl_onFigure_skip lib _ _ (by simp)]
    simp [finalMeals_eq, initState]
  | true =>
    cases hf : doc.find isFigureTable with
    | nil => simp [finalMeals_eq, initState]
    | cons fig rest =>
      rw [List.foldl_cons, onFigure_walk lib _ fig rfl rfl]
      have hfl := walk_flags lib (tableCells fig)
        { initState with dateFound := true, tableFound := true }
      rw [foldl_onFigure_skip lib rest _ (by rw [hfl.1, hfl.2]; rfl)]
      simp only [if_true]
      rw [walk_final, walk_final]

/-- The meals mapping `scrape` returns for a fetched page. -/
theorem scrape_meals (lib : Lib) (date : Time) (w : World) (doc : Node)
    (hp : w.page = .ok doc) :
    (scrape lib date w).1.1.Meals =
      some (commitAll
        (([], blockItems lib (walkedCells (getFormattedDate date) doc)) ::
          blocks lib (walkedCells (getFormattedDate date) doc)) []) := by
  unfold scrape
  simp only [hp]
  rw [finalMeals_runCallbacks, walk_final]
  rfl

/-! ## The claims -/

/-- C9 (marker classification): a cell text passes the boundary test of
`scrape` exactly when it contains one of the three phrases; then
`mapMealType` gives a non-empty identifier by the precedence breakfast, lunch,
dinner; `mapMealType` gives the empty string exactly for the texts that
contain none of the phrases; and `onCell` switches the current period on the
cells that pass the test and leaves period and map alone on the others. -/
theorem marker_classification (t : Str) :
    (isMarker t = true ↔
      (phraseBreakfast <:+: t ∨ phraseLunch <:+: t ∨ phraseDinner <:+: t)) ∧
    (isMarker t = true → mapMealType t ≠ []) ∧
    (phraseBreakfast <:+: t → mapMealType t = breakfast) ∧
    (¬ phraseBreakfast <:+: t → phraseLunch <:+: t → mapMealType t = lunch) ∧
    (¬ phraseBreakfast <:+: t → ¬ phraseLunch <:+: t → phraseDinner <:+: t →
      mapMealType t = dinner) ∧
    (mapMealType t = [] ↔
      ¬ (phraseBreakfast <:+: t ∨ phraseLunch <:+: t ∨ phraseDinner <:+: t)) ∧
    (∀ (lib : Lib) (st : ScrapeState) (cell : Node), cell.textOf = t →
      (isMarker t = true →
        (onCell lib st cell).currentMealType = mapMealType t ∧
        (onCell lib st cell).mealOptions.elems = []) ∧
      (isMarker t = false →
        (onCell lib st cell).currentMealType = st.currentMealType ∧
        (onCell lib st cell).meals = st.meals ∧
        (onCell lib st cell).mealOptions.elems =
          st.mealOptions.elems ++ (extractMealColly lib cell).elems)) := by
  have hb := contains_iff t phraseBreakfast
  have hl := contains_iff t phraseLunch
  have hd := contains_iff t phraseDinner
  have e1 : breakfast ≠ [] := by decide
  have e2 : lunch ≠ [] := by decide
  have e3 : dinner ≠ [] := by decide
  unfold isMarker mapMealType
  refine ⟨?_, ?_, ?_, ?_, ?_, ?_, ?_⟩
  · simp only [Bool.or_eq_true, hb, hl, hd, or_assoc]
  · intro h
    by_cases c1 : contains t phraseBreakfast = true
    · simp [c1, e1]
    · by_cases c2 : contains t phraseLunch = true
      · simp [c1, c2, e2]
      · by_cases c3 : contains t phraseDinner = true
        · simp [c1, c2, c3, e3]
        · simp [c1, c2, c3] at h
  · intro h
    simp [hb.mpr h]
  · intro h1 h2
    have c1 : ¬ contains t phraseBreakfast = true := fun c => h1 (hb.mp c)
    simp [c1, hl.mpr h2]
  · intro h1 h2 h3
    have c1 : ¬ contains t phraseBreakfast = true := fun c => h1 (hb.mp c)
    have c2 : ¬ contains t phraseLunch = true := fun c => h2 (hl.mp c)
    simp [c1, c2, hd.mpr h3]
  · rw [← hb, ← hl, ← hd]
    by_cases c1 : contains t phraseBreakfast = true
    · simp [c1, e1]
    · by_cases c2 : contains t phraseLunch = true
      · simp [c1, c2, e2]
      · by_cases c3 : contains t phraseDinner = true
        · simp [c1, c2, c3, e3]
        · simp [c1, c2, c3]
  · intro lib st cell ht
    subst ht
    constructor
    · intro h
      obtain ⟨_, h2, h3, _, _⟩ := onCell_marker lib st cell h
      exact ⟨h2, h3⟩
    · intro h
      obtain ⟨h1, h2, h3, _, _⟩ := onCell_content lib st cell h
      exact ⟨h2, h1, h3⟩

/-- C2 (meal-item parsing of one cell): when the cell's inner markup is `h`,
`extractMealColly` returns, in fragment order, the items of the fragments
of `split h "<br/>"`: one item for every fragment whose tag-stripped, trimmed
text is non-empty, named by that text and carrying the `src` values of the
fragment's `img` elements in document order; every returned item has a
non-nil icon list. -/
theorem extractMealColly_items (lib : Lib) (cell : Node) (h : Str)
    (hh : lib.html cell = .ok h) :
    (extractMealColly lib cell).elems =
        (split h brMarker).filterMap (itemOfFragment lib) ∧
      (∀ part item, itemOfFragment lib part = some item ↔
        ∃ d, lib.newDocumentFromReader part = .ok d ∧ trimSpace d.textOf ≠ [] ∧
          item.Name = trimSpace d.textOf ∧
          item.Icons = some ((d.find (Node.hasTag tagImg)).filterMap (Node.attr attrSrc))) ∧
      (∀ item ∈ (extractMealColly lib cell).elems, ∃ icons, item.Icons = some icons) := by
  have hspec : ∀ part item, itemOfFragment lib part = some item ↔
      ∃ d, lib.newDocumentFromReader part = .ok d ∧ trimSpace d.textOf ≠ [] ∧
        item.Name = trimSpace d.textOf ∧
        item.Icons = some ((d.find (Node.hasTag tagImg)).filterMap (Node.attr attrSrc)) := by
    intro part item
    unfold itemOfFragment
    cases hd : lib.newDocumentFromReader part with
    | error e => simp
    | ok d =>
      by_cases hn : trimSpace d.textOf = []
      · simp [hn]
      · simp only [hn, if_false, Option.some.injEq, Except.ok.injEq, exists_eq_left',
          not_false_eq_true, true_and]
        constructor
        · intro e
          subst e
          exact ⟨hn, rfl, rfl⟩
        · rintro ⟨_, e1, e2⟩
          cases item
          simp only at e1 e2
          rw [e1, e2]
  have helems : (extractMealColly lib cell).elems =
      (split h brMarker).filterMap (itemOfFragment lib) := by
    rw [extractMealColly_ok lib cell h hh]
    cases (split h brMarker).filterMap (itemOfFragment lib) with
    | nil => rfl
    | cons a r => rfl
  refine ⟨helems, hspec, ?_⟩
  intro item hi
  rw [helems] at hi
  obtain ⟨part, _, hp⟩ := List.mem_filterMap.mp hi
  obtain ⟨d, _, _, _, hic⟩ := (hspec part item).mp hp
  exact ⟨_, hic⟩

/-- Witness of C2: the cell `Rice<br/>Beans<img src="x.png"/>` yields the
items Rice, without icons, and Beans, with the icon `x.png`. -/
theorem extractMealColly_items_witness :
    flatLib.html riceCell = .ok "Rice<br/>Beans<img src=\"x.png\"/>".toList ∧
      extractMealColly flatLib riceCell =
        some [{ Name := "Rice".toList, Icons := some [] },
          { Name := "Beans".toList, Icons := some ["x.png".toList] }] ∧
      (extractMealColly flatLib riceCell).elems =
        (split "Rice<br/>Beans<img src=\"x.png\"/>".toList brMarker).filterMap
          (itemOfFragment flatLib) :=
  ⟨rfl, by decide,
    (extractMealColly_items flatLib riceCell
      "Rice<br/>Beans<img src=\"x.png\"/>".toList rfl).1⟩

/-! ## Blocks and decompositions of the cell list -/

theorem blockItems_append_marker (lib : Lib) (cs : List Node) (mk : Node) (post : List Node)
    (h : isMarker mk.textOf = true) :
    blockItems lib (cs ++ mk :: post) = blockItems lib cs := by
  induction cs with
  | nil => rw [List.nil_append, blockItems_marker lib mk post h, blockItems_nil]
  | cons c cs ih =>
    rw [List.cons_append]
    cases hc : isMarker c.textOf with
    | true => rw [blockItems_marker lib c _ hc, blockItems_marker lib c _ hc]
    | false => rw [blockItems_content lib c _ hc, blockItems_content lib c _ hc, ih]

theorem blocks_append_marker (lib : Lib) (pre : List Node) (mk : Node) (post : List Node)
    (h : isMarker mk.textOf = true) :
    blocks lib (pre ++ mk :: post) =
      blocks lib pre ++ (mapMealType mk.textOf, blockItems lib post) :: blocks lib post := by
  induction pre with
  | nil => rw [List.nil_append, blocks_marker lib mk post h]; rfl
  | cons c cs ih =>
    rw [List.cons_append]
    cases hc : isMarker c.textOf with
    | true =>
      rw [blocks_marker lib c _ hc, blocks_marker lib c _ hc, ih,
        blockItems_append_marker lib cs mk post h]
      rfl
    | false => rw [blocks_content lib c _ hc, blocks_content lib c _ hc, ih]

theorem mem_blocks_iff (lib : Lib) (cells : List Node) (b : Str × List Meal) :
    b ∈ blocks lib cells ↔
      ∃ pre mk post, cells = pre ++ mk :: post ∧ isMarker mk.textOf = true ∧
        b = (mapMealType mk.textOf, blockItems lib post) := by
  constructor
  · intro hb
    induction cells with
    | nil => simp [blocks] at hb
    | cons c cs ih =>
      cases hc : isMarker c.textOf with
      | true =>
        rw [blocks_marker lib c cs hc, List.mem_cons] at hb
        rcases hb with hb | hb
        · exact ⟨[], c, cs, rfl, hc, hb⟩
        · obtain ⟨pre, mk, post, e, hm, hb2⟩ := ih hb
          exact ⟨c :: pre, mk, post, by rw [e]; rfl, hm, hb2⟩
      | false =>
        rw [blocks_content lib c cs hc] at hb
        obtain ⟨pre, mk, post, e, hm, hb2⟩ := ih hb
        exact ⟨c :: pre, mk, post, by rw [e]; rfl, hm, hb2⟩
  · rintro ⟨pre, mk, post, e, hm, hb⟩
    rw [e, blocks_append_marker lib pre mk post hm, hb]
    simp

theorem blocks_periods (lib : Lib) (cells : List Node) :
    (blocks lib cells).map Prod.fst =
      (cells.filter (fun c => isMarker c.textOf)).map (fun c => mapMealType c.textOf) := by
  induction cells with
  | nil => rfl
  | cons c cs ih =>
    cases hc : isMarker c.textOf with
    | true => rw [blocks_marker lib c cs hc]; simp [List.filter_cons, hc, ih]
    | false => rw [blocks_content lib c cs hc]; simp [List.filter_cons, hc, ih]

theorem blockItems_name (lib : Lib) (cells : List Node) (item : Meal)
    (h : item ∈ blockItems lib cells) : item.Name ≠ [] := by
  unfold blockItems at h
  obtain ⟨c, _, hc⟩ := List.mem_flatMap.mp h
  exact (cellItems_name lib c item hc).1

theorem MealsMap.mem_set (m : MealsMap) (k : Str) (v : Slice Meal) (kv : Str × Slice Meal)
    (h : kv ∈ m.set k v) : kv = (k, v) ∨ kv ∈ m := by
  induction m with
  | nil => left; simpa [MealsMap.set] using h
  | cons e m ih =>
    obtain ⟨k1, v1⟩ := e
    by_cases hk : k1 = k
    · simp only [MealsMap.set, hk, if_true, List.mem_cons] at h
      rcases h with h | h
      · exact Or.inl h
      · exact Or.inr (List.mem_cons_of_mem _ h)
    · simp only [MealsMap.set, hk, if_false, List.mem_cons] at h
      rcases h with h | h
      · exact Or.inr (by rw [h]; exact List.mem_cons_self _ _)
      · rcases ih h with h2 | h2
        · exact Or.inl h2
        · exact Or.inr (List.mem_cons_of_mem _ h2)

theorem mem_commitAll (bs : List (Str × List Meal)) (m : MealsMap) (kv : Str × Slice Meal)
    (h : kv ∈ commitAll bs m) : kv ∈ m ∨ ∃ b ∈ bs, kv = (b.1, some b.2) := by
  induction bs generalizing m with
  | nil => exact Or.inl h
  | cons b bs ih =>
    rw [commitAll_cons] at h
    rcases ih _ h with h1 | ⟨b2, hb2, e⟩
    · by_cases he : b.2 = []
      · rw [if_pos he] at h1
        exact Or.inl h1
      · rw [if_neg he] at h1
        rcases MealsMap.mem_set m _ _ kv h1 with h2 | h2
        · exact Or.inr ⟨b, List.mem_cons_self _ _, h2⟩
        · exact Or.inl h2
    · exact Or.inr ⟨b2, List.mem_cons_of_mem _ hb2, e⟩

theorem dateMatches_iff (fd : Str) (doc : Node) :
    dateMatches fd doc = true ↔
      ∃ e ∈ doc.find (Node.hasTag tagStrong), fd <:+: trimSpace e.textOf := by
  unfold dateMatches
  rw [List.any_eq_true]
  constructor
  · rintro ⟨e, he, hc⟩
    exact ⟨e, he, (contains_iff _ _).mp hc⟩
  · rintro ⟨e, he, hc⟩
    exact ⟨e, he, (contains_iff _ _).mpr hc⟩

theorem walkedCells_of_match (fd : Str) (doc fig : Node) (rest : List Node)
    (hd : ∃ e ∈ doc.find (Node.hasTag tagStrong), fd <:+: trimSpace e.textOf)
    (hf : doc.find isFigureTable = fig :: rest) :
    walkedCells fd doc = tableCells fig := by
  unfold walkedCells
  rw [(dateMatches_iff fd doc).mpr hd, hf]
  rfl

theorem walkedCells_of_no_match (fd : Str) (doc : Node)
    (hd : ∀ e ∈ doc.find (Node.hasTag tagStrong), ¬ fd <:+: trimSpace e.textOf) :
    walkedCells fd doc = [] := by
  unfold walkedCells
  have : dateMatches fd doc = false := by
    cases h : dateMatches fd doc with
    | false => rfl
    | true =>
      obtain ⟨e, he, hc⟩ := (dateMatches_iff fd doc).mp h
      exact absurd hc (hd e he)
  rw [this]
  rfl

/-- C6, amended (no empty names): every item `extractMealColly` returns has
a name that is non-empty and has no white space at either end; a cell all of
whose `<br/>`-separated markup fragments have empty or white-space-only text
after tag-stripping yields no item at all (the nil slice); and every item
stored in the meals mapping of the record `scrape` returns has a non-empty
name. -/
theorem no_empty_names (lib : Lib) (cell : Node) :
    (∀ item ∈ (extractMealColly lib cell).elems,
      item.Name ≠ [] ∧ trimSpace item.Name = item.Name ∧
      (∀ c, item.Name.head? = some c → isSpace c = false) ∧
      (∀ c, item.Name.getLast? = some c → isSpace c = false)) ∧
    (∀ h, lib.html cell = .ok h →
      (∀ part ∈ split h brMarker, ∀ d, lib.newDocumentFromReader part = .ok d →
        trimSpace d.textOf = []) →
      extractMealColly lib cell = none) ∧
    (∀ (date : Time) (w : World) (m : MealsMap), (scrape lib date w).1.1.Meals = some m →
      ∀ kv ∈ m, ∀ item ∈ kv.2.elems, item.Name ≠ []) := by
  refine ⟨?_, ?_, ?_⟩
  · intro item hi
    obtain ⟨h1, h2⟩ := cellItems_name lib cell item hi
    refine ⟨h1, h2, ?_, ?_⟩
    · intro c hc
      rw [← h2] at hc
      exact trimSpace_head _ c hc
    · intro c hc
      rw [← h2] at hc
      exact trimSpace_getLast _ c hc
  · intro h hh hall
    rw [extractMealColly_ok lib cell h hh]
    have : (split h brMarker).filterMap (itemOfFragment lib) = [] := by
      rw [List.filterMap_eq_nil_iff]
      intro part hp
      cases hi : itemOfFragment lib part with
      | none => rfl
      | some item =>
        obtain ⟨hne, d, hd, hname⟩ := itemOfFragment_name lib part item hi
        exact absurd (hname.trans (hall part hp d hd)) hne
    rw [this]
  · intro date w m hm kv hkv item hitem
    cases hp : w.page with
    | error e =>
      unfold scrape at hm
      simp [hp, Response.zero] at hm
    | ok doc =>
      rw [scrape_meals lib date w doc hp, Option.some.injEq] at hm
      subst hm
      rcases mem_commitAll _ _ kv hkv with h0 | ⟨b, hb, e⟩
      · simp at h0
      · rw [e] at hitem
        simp only [Slice.elems] at hitem
        rw [List.mem_cons] at hb
        rcases hb with hb | hb
        · rw [hb] at hitem
          exact blockItems_name lib _ item hitem
        · obtain ⟨pre, mk, post, _, _, e2⟩ := (mem_blocks_iff lib _ b).mp hb
          rw [e2] at hitem
          exact blockItems_name lib _ item hitem

theorem flatLib_parse (part : Str) (d : Node)
    (h : flatLib.newDocumentFromReader part = .ok d) : d = flatParse part :=
  (Except.ok.inj h).symm

/-- C6, as stated, fails on a cell whose own text is empty: the cell holds
only a comment that has a line-break marker inside; its text is empty, yet
the inner markup `<!-- Arroz<br/>Feijao -->` is cut inside the comment, the
second fragment `Feijao -->` parses to plain text, and an item of that name
is returned. -/
theorem blank_cell_yields_item :
    commentCell.textOf = [] ∧
      flatLib.html commentCell = .ok "<!-- Arroz<br/>Feijao -->".toList ∧
      split "<!-- Arroz<br/>Feijao -->".toList brMarker =
        ["<!-- Arroz".toList, "Feijao -->".toList] ∧
      extractMealColly flatLib commentCell =
        some [{ Name := "Feijao -->".toList, Icons := some [] }] :=
  ⟨rfl, rfl, by decide, by decide⟩

/-- Witness of C6, amended: a cell that holds only an image, blanks and line
breaks yields no item. -/
theorem no_empty_names_witness :
    flatLib.html decorCell = .ok "<br/><img src=\"x.png\"/>  <br/>".toList ∧
      extractMealColly flatLib decorCell = none :=
  ⟨rfl, (no_empty_names flatLib decorCell).2.1 _ rfl
    (fun part hp d hd => by
      rw [flatLib_parse part d hd]
      clear hd d
      revert part
      decide)⟩

/-- C4 (no-match outcome): on a fetched page none of whose `strong` nodes
has a trimmed text that contains the formatted target date, `scrape`
returns no error and a record whose meals mapping is the empty, non-nil
map, whatever else the page holds. -/
theorem no_match_empty (lib : Lib) (date : Time) (w : World) (doc : Node)
    (hp : w.page = .ok doc)
    (hno : ∀ e ∈ doc.find (Node.hasTag tagStrong),
      ¬ getFormattedDate date <:+: trimSpace e.textOf) :
    (scrape lib date w).1.2 = none ∧ (scrape lib date w).1.1.Meals = some [] := by
  constructor
  · unfold scrape
    simp [hp]
  · rw [scrape_meals lib date w doc hp, walkedCells_of_no_match _ doc hno]
    rfl

/-- Witness of C4: a page that lists another day in front of a table. -/
theorem no_match_empty_witness :
    (scrape flatLib march25 (worldOf otherDayPage)).1.2 = none ∧
      (scrape flatLib march25 (worldOf otherDayPage)).1.1.Meals = some [] :=
  no_match_empty flatLib march25 (worldOf otherDayPage) otherDayPage rfl (by decide)

/-- The meals mapping of `scrape` when the walked table starts with a marker
cell: the blocks of the table, committed in order to the empty map. -/
theorem scrape_meals_marker_first (lib : Lib) (date : Time) (w : World) (doc fig : Node)
    (rest : List Node) (c : Node) (cs : List Node)
    (hp : w.page = .ok doc)
    (hd : ∃ e ∈ doc.find (Node.hasTag tagStrong),
      getFormattedDate date <:+: trimSpace e.textOf)
    (hf : doc.find isFigureTable = fig :: rest)
    (hc : tableCells fig = c :: cs) (hm : isMarker c.textOf = true) :
    (scrape lib date w).1.1.Meals = some (commitAll (blocks lib (tableCells fig)) []) := by
  rw [scrape_meals lib date w doc hp, walkedCells_of_match _ doc fig rest hd hf, hc,
    blockItems_marker lib c cs hm, commitAll_cons]
  rfl

/-- C1 (segmentation of the selected table): when the table `scrape` walks
starts with a marker cell and no period is announced by two marker cells,
the returned meals mapping has pairwise different keys; its keys are exactly
the periods of the marker cells whose block parsed at least one item; and
under the period of a marker cell it holds the items of the content cells
between that marker and the next marker (or the end of the table), in
document order, and nothing when there are no such items. -/
theorem segmentation (lib : Lib) (date : Time) (w : World) (doc fig : Node)
    (rest : List Node) (c : Node) (cs : List Node)
    (hp : w.page = .ok doc)
    (hd : ∃ e ∈ doc.find (Node.hasTag tagStrong),
      getFormattedDate date <:+: trimSpace e.textOf)
    (hf : doc.find isFigureTable = fig :: rest)
    (hc : tableCells fig = c :: cs) (hm : isMarker c.textOf = true)
    (hnd : (((tableCells fig).filter (fun c => isMarker c.textOf)).map
      (fun c => mapMealType c.textOf)).Nodup) :
    ∃ m, (scrape lib date w).1.1.Meals = some m ∧ m.keys.Nodup ∧
      (∀ k, k ∈ m.keys ↔
        ∃ pre mk post, tableCells fig = pre ++ mk :: post ∧ isMarker mk.textOf = true ∧
          mapMealType mk.textOf = k ∧ blockItems lib post ≠ []) ∧
      (∀ pre mk post, tableCells fig = pre ++ mk :: post → isMarker mk.textOf = true →
        m.get (mapMealType mk.textOf) =
          (if blockItems lib post = [] then none else some (some (blockItems lib post)))) := by
  refine ⟨_, scrape_meals_marker_first lib date w doc fig rest c cs hp hd hf hc hm,
    nodup_keys_commitAll _ [] (by simp [MealsMap.keys]), ?_, ?_⟩
  · intro k
    rw [mem_keys_commitAll]
    constructor
    · rintro (h0 | ⟨b, hb, hk, hne⟩)
      · simp [MealsMap.keys] at h0
      · obtain ⟨pre, mk, post, e, hmk, hb2⟩ := (mem_blocks_iff lib _ b).mp hb
        subst hb2
        exact ⟨pre, mk, post, e, hmk, hk, hne⟩
    · rintro ⟨pre, mk, post, e, hmk, hk, hne⟩
      exact Or.inr ⟨(mapMealType mk.textOf, blockItems lib post),
        (mem_blocks_iff lib _ _).mpr ⟨pre, mk, post, e, hmk, rfl⟩, hk, hne⟩
  · intro pre mk post e hmk
    rw [← blocks_periods lib, e, blocks_append_marker lib pre mk post hmk, List.map_append,
      List.map_cons, List.nodup_append, List.nodup_cons] at hnd
    obtain ⟨_, ⟨hk3, _⟩, hdis⟩ := hnd
    have hk1 : mapMealType mk.textOf ∉ (blocks lib pre).map Prod.fst := by
      intro hin
      exact hdis hin (List.mem_cons_self _ _)
    rw [e, blocks_append_marker lib pre mk post hmk]
    have h3 : ∀ b ∈ blocks lib post, b.1 = mapMealType mk.textOf → b.2 = [] := by
      intro b hb hbk
      exact absurd (List.mem_map.mpr ⟨b, hb, hbk⟩) hk3
    by_cases hi : blockItems lib post = []
    · rw [if_pos hi, get_commitAll_skip]
      · rfl
      · intro b hb hbk
        rw [List.mem_append, List.mem_cons] at hb
        rcases hb with hb | hb | hb
        · exact absurd (List.mem_map.mpr ⟨b, hb, hbk⟩) hk1
        · rw [hb]; exact hi
        · exact h3 b hb hbk
    · rw [if_neg hi]
      exact get_commitAll_last _ _ _ _ [] hi h3

/-- Witness of C1: a lunch marker, two one-line content cells, a dinner
marker and one one-line content cell give exactly the keys lunch and dinner,
with two items and one item. -/
theorem segmentation_witness :
    (scrape flatLib march25 (worldOf lunchDinnerPage)).1.1.Meals =
        some [(lunch, some [plainMeal "Rice", plainMeal "Beans"]),
          (dinner, some [plainMeal "Soup"])] ∧
      ∃ m, (scrape flatLib march25 (worldOf lunchDinnerPage)).1.1.Meals = some m ∧
        m.keys.Nodup ∧
        (∀ k, k ∈ m.keys ↔
          ∃ pre mk post, tableCells lunchDinnerTable = pre ++ mk :: post ∧
            isMarker mk.textOf = true ∧ mapMealType mk.textOf = k ∧
            blockItems flatLib post ≠ []) ∧
        (∀ pre mk post, tableCells lunchDinnerTable = pre ++ mk :: post →
          isMarker mk.textOf = true →
          m.get (mapMealType mk.textOf) =
            (if blockItems flatLib post = [] then none
             else some (some (blockItems flatLib post)))) :=
  ⟨by decide,
    segmentation flatLib march25 (worldOf lunchDinnerPage) lunchDinnerPage lunchDinnerTable []
      (td [.text "ALMOÇO".toList]) _ rfl (by decide) rfl rfl (by decide) (by decide)⟩

/-- C10 (a repeated period marker replaces): when two marker cells of the
walked table announce the same period, both blocks parse at least one item
and no later block of that period parses an item, the value stored under
the period is exactly the item sequence of the later block; it is not the
earlier items followed by the later ones. -/
theorem repeated_marker_replaces (lib : Lib) (date : Time) (w : World) (doc fig : Node)
    (rest pre : List Node) (mk1 : Node) (mid : List Node) (mk2 : Node) (post : List Node)
    (hp : w.page = .ok doc)
    (hd : ∃ e ∈ doc.find (Node.hasTag tagStrong),
      getFormattedDate date <:+: trimSpace e.textOf)
    (hf : doc.find isFigureTable = fig :: rest)
    (hcells : tableCells fig = pre ++ mk1 :: (mid ++ mk2 :: post))
    (h1 : isMarker mk1.textOf = true) (h2 : isMarker mk2.textOf = true)
    (hsame : mapMealType mk1.textOf = mapMealType mk2.textOf)
    (hi1 : blockItems lib (mid ++ mk2 :: post) ≠ [])
    (hi2 : blockItems lib post ≠ [])
    (hlast : ∀ p mk3 q, post = p ++ mk3 :: q → isMarker mk3.textOf = true →
      mapMealType mk3.textOf = mapMealType mk2.textOf → blockItems lib q = []) :
    ∃ m, (scrape lib date w).1.1.Meals = some m ∧
      m.get (mapMealType mk1.textOf) = some (some (blockItems lib post)) ∧
      m.get (mapMealType mk1.textOf) ≠
        some (some (blockItems lib (mid ++ mk2 :: post) ++ blockItems lib post)) := by
  rw [hsame]
  have h3 : ∀ b ∈ blocks lib post, b.1 = mapMealType mk2.textOf → b.2 = [] := by
    intro b hb hbk
    obtain ⟨p, mk3, q, e, hm3, hb3⟩ := (mem_blocks_iff lib post b).mp hb
    subst hb3
    exact hlast p mk3 q e hm3 hbk
  have hget : (commitAll (([], blockItems lib (tableCells fig)) :: blocks lib (tableCells fig))
      []).get (mapMealType mk2.textOf) = some (some (blockItems lib post)) := by
    rw [hcells, blocks_append_marker lib pre mk1 _ h1, blocks_append_marker lib mid mk2 post h2]
    have e : ([], blockItems lib (pre ++ mk1 :: (mid ++ mk2 :: post))) ::
        (blocks lib pre ++ (mapMealType mk1.textOf, blockItems lib (mid ++ mk2 :: post)) ::
          (blocks lib mid ++ (mapMealType mk2.textOf, blockItems lib post) :: blocks lib post)) =
        (([], blockItems lib (pre ++ mk1 :: (mid ++ mk2 :: post))) ::
          (blocks lib pre ++ (mapMealType mk1.textOf, blockItems lib (mid ++ mk2 :: post)) ::
            blocks lib mid)) ++
          (mapMealType mk2.textOf, blockItems lib post) :: blocks lib post := by
      simp
    rw [e]
    exact get_commitAll_last _ _ _ _ [] hi2 h3
  refine ⟨_, ?_, hget, ?_⟩
  · rw [scrape_meals lib date w doc hp, walkedCells_of_match _ doc fig rest hd hf]
  · rw [hget]
    intro e
    simp only [Option.some.injEq] at e
    have hl := congrArg List.length e
    rw [List.length_append] at hl
    have : 0 < (blockItems lib (mid ++ mk2 :: post)).length := List.length_pos.mpr hi1
    omega

/-- Witness of C10: of two lunch blocks the later one is what the mapping
holds. -/
theorem repeated_marker_replaces_witness :
    (scrape flatLib march25 (worldOf repeatedLunchPage)).1.1.Meals =
        some [(lunch, some [plainMeal "Pasta"])] ∧
      ∃ m, (scrape flatLib march25 (worldOf repeatedLunchPage)).1.1.Meals = some m ∧
        m.get lunch = some (some [plainMeal "Pasta"]) ∧
        m.get lunch ≠ some (some ([plainMeal "Rice"] ++ [plainMeal "Pasta"])) :=
  ⟨by decide,
    repeated_marker_replaces flatLib march25 (worldOf repeatedLunchPage) repeatedLunchPage
      repeatedLunchTable [] [] (td [.text "ALMOÇO".toList]) [td [.text "Rice".toList]]
      (td [.text "ALMOÇO".toList]) [td [.text "Pasta".toList]] rfl (by decide) rfl rfl
      (by decide) (by decide) (by decide) (by decide) (by decide)
      (fun p mk3 q e => by
        rcases p with _ | ⟨a, _ | ⟨b, p⟩⟩ <;> simp at e
        obtain ⟨e1, e2⟩ := e
        subst e1
        intro h
        exact absurd h (by decide))⟩

/-- C5 at a failing input: a content cell in front of the first marker cell
makes `scrape` store its items under the empty-string key. -/
theorem empty_key_created :
    (scrape flatLib march25 (worldOf leadingContentPage)).1.1.Meals =
      some [([], some [plainMeal "Rice"]), (lunch, some [plainMeal "Beans"])] := by
  decide

/-- The keys `scrape` can create: the empty string, the initial value of
`currentMealType`, and the period of a marker cell of the walked table. -/
theorem keys_of_scrape (lib : Lib) (date : Time) (w : World) (m : MealsMap) (k : Str)
    (hm : (scrape lib date w).1.1.Meals = some m) (hk : k ∈ m.keys) :
    k = [] ∨ k = breakfast ∨ k = lunch ∨ k = dinner := by
  cases hp : w.page with
  | error e =>
    unfold scrape at hm
    simp [hp, Response.zero] at hm
  | ok doc =>
    rw [scrape_meals lib date w doc hp, Option.some.injEq] at hm
    subst hm
    rw [mem_keys_commitAll] at hk
    rcases hk with h0 | ⟨b, hb, hbk, _⟩
    · simp [MealsMap.keys] at h0
    · rw [List.mem_cons] at hb
      rcases hb with hb | hb
      · left; rw [← hbk, hb]
      · obtain ⟨pre, mk, post, _, hmk, e⟩ := (mem_blocks_iff lib _ b).mp hb
        right
        rw [← hbk, e]
        show mapMealType mk.textOf = breakfast ∨ mapMealType mk.textOf = lunch ∨
          mapMealType mk.textOf = dinner
        unfold isMarker at hmk
        unfold mapMealType
        by_cases c1 : contains mk.textOf phraseBreakfast = true
        · simp [c1]
        · by_cases c2 : contains mk.textOf phraseLunch = true
          · simp [c1, c2]
          · by_cases c3 : contains mk.textOf phraseDinner = true
            · simp [c1, c2, c3]
            · simp [c1, c2, c3] at hmk

/-- C3 at a failing input: on a page that lists two days, each with its own
table, the request for the second day returns the items of the first
table, which stands in front of the matching date node; the table that
follows the matching date node contributes nothing. -/
theorem second_date_gets_first_table :
    (scrape flatLib march25 (worldOf twoDayPage)).1.1.Meals =
        some [(lunch, some [plainMeal "Rice", plainMeal "Beans"]),
          (dinner, some [plainMeal "Soup"])] ∧
      (scrape flatLib march25 (worldOf secondDayPage)).1.1.Meals =
        some [(lunch, some [plainMeal "Pasta"])] := by
  decide

/-! ## Dates and the handler -/

theorem digit_cases (a : Char) (ha : isDigit a = true) :
    a ∈ ['0', '1', '2', '3', '4', '5', '6', '7', '8', '9'] := by
  unfold isDigit at ha
  simp only [Bool.and_eq_true, decide_eq_true_eq] at ha
  obtain ⟨h1, h2⟩ := ha
  have e : a = Char.ofNat a.toNat := (Char.ofNat_toNat a).symm
  rw [e]
  generalize a.toNat = n at h1 h2
  interval_cases n <;> decide

theorem appendInt_two_digits (a b : Char) (ha : isDigit a = true) (hb : isDigit b = true) :
    appendInt (digitVal a * 10 + digitVal b) 2 = [a, b] := by
  have h1 := digit_cases a ha
  have h2 := digit_cases b hb
  simp only [List.mem_cons, List.mem_singleton, List.not_mem_nil, or_false] at h1 h2
  rcases h1 with h1 | h1 | h1 | h1 | h1 | h1 | h1 | h1 | h1 | h1 <;>
  rcases h2 with h2 | h2 | h2 | h2 | h2 | h2 | h2 | h2 | h2 | h2 <;>
  subst h1 <;> subst h2 <;> rfl

theorem digitVal_lt (a : Char) (ha : isDigit a = true) : digitVal a < 10 := by
  unfold isDigit at ha
  unfold digitVal
  simp only [Bool.and_eq_true, decide_eq_true_eq] at ha
  omega

theorem scrape_date (lib : Lib) (date : Time) (w : World) (doc : Node)
    (hp : w.page = .ok doc) :
    (scrape lib date w).1.1.Date = getFormattedDate date ∧ (scrape lib date w).1.2 = none := by
  unfold scrape
  simp [hp]

theorem scrape_failed (lib : Lib) (date : Time) (w : World) (e : Str)
    (hp : w.page = .error e) :
    scrape lib date w = ((Response.zero, some e), { w with visits := w.visits + 1 }) := by
  unfold scrape
  simp [hp]

theorem handler_of_parsed (lib : Lib) (request : Request) (w : World) (t : Time)
    (hne : request.Date ≠ []) (ht : timeParse request.Date = .ok t) :
    (handler lib request w).1 =
      (match (scrape lib t w).1.2 with
       | some err => (Response.zero, some err)
       | none => ((scrape lib t w).1.1, none)) ∧
      (handler lib request w).2 = (scrape lib t w).2 := by
  unfold handler
  simp only [hne, if_false, ht]
  rcases hs : scrape lib t w with ⟨⟨r, _ | err⟩, w1⟩ <;> simp

theorem handler_of_empty (lib : Lib) (request : Request) (w : World)
    (he : request.Date = []) :
    (handler lib request w).1 =
      (match (scrape lib w.now w).1.2 with
       | some err => (Response.zero, some err)
       | none => ((scrape lib w.now w).1.1, none)) ∧
      (handler lib request w).2 = (scrape lib w.now w).2 := by
  unfold handler
  simp only [he, if_true]
  rcases hs : scrape lib w.now w with ⟨⟨r, _ | err⟩, w1⟩ <;> simp

theorem date_of_parsed (lib : Lib) (s : Str) (t : Time) (fd : Str) (w : World) (doc : Node)
    (hne : s ≠ []) (hparse : timeParse s = .ok t) (hfmt : getFormattedDate t = fd)
    (hp : w.page = .ok doc) :
    (scrape lib t w).1.1.Date = fd ∧ (handler lib { Date := s } w).1.1.Date = fd := by
  have hs := scrape_date lib t w doc hp
  refine ⟨by rw [hs.1, hfmt], ?_⟩
  have hh := (handler_of_parsed lib { Date := s } w t hne hparse).1
  rw [hh, hs.2]
  simp only
  rw [hs.1, hfmt]

/-- C7, as stated, fails when the fetch fails: the date `2024-03-25` parses
and formats to `25/03/24`, but the record `scrape` returns after a failed
visit is the zero record, whose date field is empty. -/
theorem date_field_on_failed_fetch :
    timeParse "2024-03-25".toList = .ok march25 ∧
      getFormattedDate march25 = "25/03/24".toList ∧
      (scrape flatLib march25 failedWorld).1.1.Date = [] ∧
      (scrape flatLib march25 failedWorld).1.1.Date ≠ getFormattedDate march25 :=
  ⟨rfl, by decide, by decide, by decide⟩

/-- C7, amended (date representation): a string of four digits, a dash, two
digits, a dash and two digits that denotes a valid calendar date is parsed
by `handler`'s `time.Parse`, and `getFormattedDate` of the parsed date is
the eight characters day, slash, month, slash and the last two digits of the
year, taken over from the input; when the page fetch succeeds this string is
the date field of the record that `scrape`, and with it `handler`,
returns. -/
theorem date_representation (y1 y2 y3 y4 m1 m2 d1 d2 : Char)
    (hy : isDigit y1 = true ∧ isDigit y2 = true ∧ isDigit y3 = true ∧ isDigit y4 = true)
    (hm : isDigit m1 = true ∧ isDigit m2 = true)
    (hdd : isDigit d1 = true ∧ isDigit d2 = true)
    (hmonth : 1 ≤ digitVal m1 * 10 + digitVal m2 ∧ digitVal m1 * 10 + digitVal m2 ≤ 12)
    (hday : 1 ≤ digitVal d1 * 10 + digitVal d2 ∧
      digitVal d1 * 10 + digitVal d2 ≤
        daysIn (digitVal m1 * 10 + digitVal m2)
          (digitVal y1 * 1000 + digitVal y2 * 100 + digitVal y3 * 10 + digitVal y4)) :
    ∃ t, timeParse [y1, y2, y3, y4, '-', m1, m2, '-', d1, d2] = .ok t ∧
      t = { year := digitVal y1 * 1000 + digitVal y2 * 100 + digitVal y3 * 10 + digitVal y4,
            month := digitVal m1 * 10 + digitVal m2,
            day := digitVal d1 * 10 + digitVal d2 } ∧
      getFormattedDate t = [d1, d2, '/', m1, m2, '/', y3, y4] ∧
      (getFormattedDate t).length = 8 ∧
      (∀ (lib : Lib) (w : World) (doc : Node), w.page = .ok doc →
        (scrape lib t w).1.1.Date = [d1, d2, '/', m1, m2, '/', y3, y4] ∧
        (handler lib { Date := [y1, y2, y3, y4, '-', m1, m2, '-', d1, d2] } w).1.1.Date =
          [d1, d2, '/', m1, m2, '/', y3, y4]) := by
  obtain ⟨hy1, hy2, hy3, hy4⟩ := hy
  obtain ⟨hm1, hm2⟩ := hm
  obtain ⟨hd1, hd2⟩ := hdd
  have hparse : timeParse [y1, y2, y3, y4, '-', m1, m2, '-', d1, d2] =
      .ok { year := digitVal y1 * 1000 + digitVal y2 * 100 + digitVal y3 * 10 + digitVal y4,
            month := digitVal m1 * 10 + digitVal m2,
            day := digitVal d1 * 10 + digitVal d2 } := by
    have hmz : ¬ (digitVal m1 * 10 + digitVal m2 = 0 ∨ 12 < digitVal m1 * 10 + digitVal m2) := by
      omega
    have hdz : ¬ (digitVal d1 * 10 + digitVal d2 < 1 ∨
        daysIn (digitVal m1 * 10 + digitVal m2)
          (digitVal y1 * 1000 + digitVal y2 * 100 + digitVal y3 * 10 + digitVal y4) <
          digitVal d1 * 10 + digitVal d2) := by
      omega
    unfold timeParse
    simp only [hy1, hy2, hy3, hy4, hm1, hm2, hd1, hd2, decide_True, Bool.and_self, if_true]
    rw [if_neg hmz, if_neg hdz]
  have hyear : (digitVal y1 * 1000 + digitVal y2 * 100 + digitVal y3 * 10 + digitVal y4) % 100 =
      digitVal y3 * 10 + digitVal y4 := by
    have := digitVal_lt y3 hy3
    have := digitVal_lt y4 hy4
    omega
  have hfmt : getFormattedDate
      { year := digitVal y1 * 1000 + digitVal y2 * 100 + digitVal y3 * 10 + digitVal y4,
        month := digitVal m1 * 10 + digitVal m2,
        day := digitVal d1 * 10 + digitVal d2 } = [d1, d2, '/', m1, m2, '/', y3, y4] := by
    unfold getFormattedDate
    simp only [hyear]
    rw [appendInt_two_digits d1 d2 hd1 hd2, appendInt_two_digits m1 m2 hm1 hm2,
      appendInt_two_digits y3 y4 hy3 hy4]
    rfl
  refine ⟨_, hparse, rfl, hfmt, by rw [hfmt]; rfl, ?_⟩
  intro lib w doc hp
  exact date_of_parsed lib _ _ _ w doc (by simp) hparse hfmt hp

/-- Witness of C7, amended: `2024-03-25` gives `25/03/24`. -/
theorem date_representation_witness :
    ∃ t, timeParse "2024-03-25".toList = .ok t ∧
      t = { year := 2024, month := 3, day := 25 } ∧
      getFormattedDate t = "25/03/24".toList ∧
      (getFormattedDate t).length = 8 ∧
      (∀ (lib : Lib) (w : World) (doc : Node), w.page = .ok doc →
        (scrape lib t w).1.1.Date = "25/03/24".toList ∧
        (handler lib { Date := "2024-03-25".toList } w).1.1.Date = "25/03/24".toList) :=
  date_representation '2' '0' '2' '4' '0' '3' '2' '5' (by decide) (by decide) (by decide)
    (by decide) (by decide)

/-- C8 (failure propagation): `handler` returns an error exactly when the
date string is non-empty and does not parse, or the page fetch fails; with
an error the returned record is the zero record; an unparsable date string
gives the parse error and leaves the world as it was, no visit issued; a
failed fetch on a usable date gives the fetch error after exactly one
visit; with the empty date string an error can only be a fetch failure. -/
theorem handler_failure (lib : Lib) (request : Request) (w : World) :
    ((handler lib request w).1.2 ≠ none ↔
      (request.Date ≠ [] ∧ ∃ e, timeParse request.Date = .error e) ∨
        ∃ e, w.page = .error e) ∧
    ((handler lib request w).1.2 ≠ none → (handler lib request w).1.1 = Response.zero) ∧
    (request.Date ≠ [] → ∀ e, timeParse request.Date = .error e →
      (handler lib request w).1.2 = some e ∧ (handler lib request w).2 = w) ∧
    ((request.Date = [] ∨ ∃ t, timeParse request.Date = .ok t) →
      ∀ e, w.page = .error e →
        (handler lib request w).1.2 = some e ∧
        (handler lib request w).2.visits = w.visits + 1) ∧
    (request.Date = [] →
      ((handler lib request w).1.2 ≠ none ↔ ∃ e, w.page = .error e)) := by
  have key : ∀ t : Time,
      (handler lib request w).1 =
        (match (scrape lib t w).1.2 with
         | some err => (Response.zero, some err)
         | none => ((scrape lib t w).1.1, none)) →
      (handler lib request w).2 = (scrape lib t w).2 →
      ((handler lib request w).1.2 ≠ none ↔ ∃ e, w.page = .error e) ∧
      ((handler lib request w).1.2 ≠ none → (handler lib request w).1.1 = Response.zero) ∧
      (∀ e, w.page = .error e →
        (handler lib request w).1.2 = some e ∧
        (handler lib request w).2.visits = w.visits + 1) := by
    intro t h1 h2
    rw [h1, h2]
    cases hp : w.page with
    | error e =>
      rw [scrape_failed lib t w e hp]
      simp
    | ok doc =>
      have hs := scrape_date lib t w doc hp
      rw [hs.2]
      simp
  by_cases he : request.Date = []
  · obtain ⟨h1, h2⟩ := handler_of_empty lib request w he
    obtain ⟨k1, k2, k3⟩ := key w.now h1 h2
    refine ⟨?_, k2, fun hne => absurd he hne, fun _ => k3, fun _ => k1⟩
    rw [k1]
    simp [he]
  · cases ht : timeParse request.Date with
    | error e =>
      have hh : handler lib request w = ((Response.zero, some e), w) := by
        unfold handler
        simp [he, ht]
      rw [hh]
      refine ⟨?_, fun _ => rfl, ?_, ?_, fun h => absurd h he⟩
      · simp [he]
      · intro _ e2 h2
        cases h2
        exact ⟨rfl, rfl⟩
      · rintro (h | ⟨t, h⟩)
        · exact absurd h he
        · cases h
    | ok t =>
      obtain ⟨h1, h2⟩ := handler_of_parsed lib request w t he ht
      obtain ⟨k1, k2, k3⟩ := key t h1 h2
      refine ⟨?_, k2, ?_, fun _ => k3, fun h => absurd h he⟩
      · rw [k1]
        simp
      · intro _ e h
        cases h

end Scraper
